import Mathlib

/-!
# Verification of the FLUTE-WELL timeline builder and playback scheduler

Shallow embedding of the Rust sources of the FLUTE-WELL repository:

* `src/midi_importer.rs`  — MIDI timeline builder (`midi_bytes_to_song`,
  `close_note`, `reduce_to_monophonic`);
* `src/engine/mod.rs`     — actuation engine (`InputEngine::key_press`);
* `src/player.rs`         — playback scheduler (`Player::play`, `Player::stop`).

Modelling conventions:

* Rust `f64` millisecond times are modelled as exact rationals `ℚ`.  All the
  properties verified here are order/structure properties for which the
  floating-point representation is incidental.
* Rust `u8`/`u64` values are modelled as `ℕ` and `i32` as `ℤ` (the checked
  ranges such as `0..=127` are explicit in the code being embedded, and no
  relevant arithmetic can overflow the machine widths on the embedded paths).
* Fallible Rust functions (`anyhow::Result`, plus `todo!()`/panic paths)
  are modelled with `Option`/`Except`.
* `HashMap` iteration order (used only when auto-closing dangling note-ons)
  is unspecified in Rust; it is modelled as first-insertion order.  No claim
  proved below depends on that order.
* `Vec::sort_by` is stable; it is modelled by `List.insertionSort`, which
  is also stable, and for a total preorder the stable sorted permutation is
  unique, so the two sorts are the same function.  `sort_unstable_by_key`
  (tempo changes) is also modelled by the stable sort; this is one allowed
  refinement of its unspecified tie order, and no claim depends on the
  order of equal tempo ticks.
-/

namespace FluteWell

/-! ## Data model (`Song`, `Note`, `Event` as used by `midi_importer.rs`) -/

/-- A note identity: MIDI pitch plus recorded velocity.  Rust derives
`PartialEq`/`Eq` structurally, which `DecidableEq` mirrors. -/
structure Note where
  midi : ℕ
  velocity : ℕ
deriving DecidableEq, Repr

/-- One scheduled note event of the timeline. -/
structure Event where
  note : Note
  time_ms : ℚ
  duration_ms : ℚ
deriving DecidableEq, Repr

structure Metadata where
  title : Option String
  tempo_bpm : Option ℚ
deriving DecidableEq, Repr

structure Song where
  metadata : Metadata
  events : List Event
deriving DecidableEq, Repr

/-- Constant `EPSILON_MS` from `midi_importer.rs`. -/
def EPSILON_MS : ℚ := 2

/-- Constant `DEFAULT_MPQN` from `midi_importer.rs` (microseconds per quarter note). -/
def DEFAULT_MPQN : ℕ := 500000

def MICROSECONDS_PER_MINUTE : ℚ := 60000000

/-- Enum `PolyPolicy` from `midi_importer.rs`. -/
inductive PolyPolicy where
  | Highest
  | Lowest
  | Loudest
  | Densest
deriving DecidableEq, Repr

/-! ## Monophonic reduction (`reduce_to_monophonic`) -/

/-- A sweep-line boundary point (struct `Point` in `midi_importer.rs`). -/
structure Point where
  time_ms : ℚ
  is_start : Bool
  midi : ℕ
  velocity : ℕ
  duration_ms : ℚ
deriving DecidableEq, Repr

/-- The two points pushed per event (start first, then end), in event order. -/
def mkPoints (events : List Event) : List Point :=
  events.foldr
    (fun ev acc =>
      ⟨ev.time_ms, true, ev.note.midi, ev.note.velocity, ev.duration_ms⟩ ::
      ⟨ev.time_ms + ev.duration_ms, false, ev.note.midi, ev.note.velocity, ev.duration_ms⟩ ::
      acc)
    []

/-- The point comparator: by time, with end points (`is_start = false`)
strictly before start points at equal times.  `ptLE a b` holds exactly when
the Rust comparator returns `Less` or `Equal` on `(a, b)`. -/
def ptLE (a b : Point) : Bool :=
  a.time_ms < b.time_ms || (a.time_ms == b.time_ms && (!a.is_start || b.is_start))

/-- An entry of the active-note map: `(pitch, expiry time, velocity)`.
The Rust code keeps two containers keyed by pitch that are inserted into and
removed from in lockstep: the `BTreeMap` `active` (pitch → expiry) and the
`HashMap` `note_velocity_lookup` (pitch → velocity).  A single
pitch-sorted association list carrying both payloads is the same data. -/
abbrev ActiveEntry := ℕ × ℚ × ℕ

/-- Insert into the pitch-sorted active list, replacing an existing entry for
the same pitch (a `BTreeMap::insert` on both maps). -/
def activeInsert (midi : ℕ) (expires : ℚ) (vel : ℕ) :
    List ActiveEntry → List ActiveEntry
  | [] => [(midi, expires, vel)]
  | e :: rest =>
    if midi < e.1 then (midi, expires, vel) :: e :: rest
    else if midi = e.1 then (midi, expires, vel) :: rest
    else e :: activeInsert midi expires vel rest

/-- Remove the entry for a pitch (a `BTreeMap::remove` on both maps). -/
def activeErase (midi : ℕ) (l : List ActiveEntry) : List ActiveEntry :=
  l.filter (fun e => e.1 ≠ midi)

/-- Policy `Loudest`: iterate over the active pitches in ascending order and keep the
maximum-velocity entry; like `Iterator::max_by_key`, an entry seen later
replaces an equal maximum, so velocity ties go to the highest pitch. -/
def loudestOf (l : List ActiveEntry) : Option ℕ :=
  (l.foldl
      (fun acc e =>
        match acc with
        | none => some (e.2.2, e.1)
        | some p => if p.1 ≤ e.2.2 then some (e.2.2, e.1) else some p)
      none).map (fun p => p.2)

/-- The policy dispatch computing the chosen pitch at a boundary point.
The outer `Option` is the panic effect: `Densest` is `todo!()` in the source
and aborts as soon as it is evaluated. -/
def chooseNote (policy : PolyPolicy) (active : List ActiveEntry) :
    Option (Option ℕ) :=
  match policy with
  | .Highest => some ((active.getLast?).map (fun e => e.1))
  | .Lowest => some ((active.head?).map (fun e => e.1))
  | .Loudest => some (loudestOf active)
  | .Densest => none

/-- The mutable state of the sweep loop in `reduce_to_monophonic`. -/
structure RState where
  result : List Event
  current_note : Option ℕ
  current_start : Option ℚ
  active : List ActiveEntry
deriving DecidableEq, Repr

def reduceInit : RState := ⟨[], none, none, []⟩

/-- The `if let (Some(cn), Some(cs)) = (current_note, current_start)` body
of the sweep loop: close out the previous chosen segment, provided its
duration exceeds `EPSILON_MS`.  The closed segment's velocity is the current
point's velocity, exactly as in the source. -/
def closeSegment (cn_opt : Option ℕ) (cs_opt : Option ℚ) (pt : Point)
    (res : List Event) : List Event :=
  match cn_opt, cs_opt with
  | some cn, some cs =>
    if cs + EPSILON_MS < pt.time_ms then
      res ++ [⟨⟨cn, pt.velocity⟩, cs, pt.time_ms - cs⟩]
    else
      res
  | some _, none => res
  | none, _ => res

/-- One iteration of the sweep loop: update the active set, recompute the
chosen pitch, and close out the previous chosen segment when it changed. -/
def reduceStep (policy : PolyPolicy) (st : RState) (pt : Point) : Option RState :=
  let active :=
    if pt.is_start then
      activeInsert pt.midi (pt.time_ms + pt.duration_ms) pt.velocity st.active
    else
      activeErase pt.midi st.active
  match chooseNote policy active with
  | none => none
  | some chosen =>
    if chosen = st.current_note then
      some ⟨st.result, st.current_note, st.current_start, active⟩
    else
      let result := closeSegment st.current_note st.current_start pt st.result
      match chosen with
      | some c => some ⟨result, some c, some pt.time_ms, active⟩
      | none => some ⟨result, none, none, active⟩

/-- One iteration of the adjacent-merge pass: the accumulator is the
committed early part of the output plus the open last element
(`merged.last_mut()`). -/
def mergeStep (merge : Bool) (acc : List Event × Option Event) (ev : Event) :
    List Event × Option Event :=
  match acc.2 with
  | none => (acc.1, some ev)
  | some last =>
    if merge && last.note == ev.note &&
        |last.time_ms + last.duration_ms - ev.time_ms| ≤ EPSILON_MS then
      (acc.1,
        some ⟨last.note, last.time_ms,
          max (last.time_ms + last.duration_ms) (ev.time_ms + ev.duration_ms)
            - last.time_ms⟩)
    else
      (acc.1 ++ [last], some ev)

/-- The adjacent-merge pass over the reduced list (second loop of
`reduce_to_monophonic`). -/
def mergePass (merge : Bool) (l : List Event) : List Event :=
  let p := l.foldl (mergeStep merge) ([], none)
  p.1 ++ p.2.toList

/-- Function `reduce_to_monophonic` from `midi_importer.rs`.  Returns `none` exactly
when the source panics (the `todo!()` of the unimplemented `Densest` policy,
reached iff the input is non-empty and that policy is selected). -/
def reduce_to_monophonic (events : List Event) (policy : PolyPolicy)
    (merge : Bool) : Option (List Event) :=
  if events.isEmpty then
    some events
  else do
    let points := List.insertionSort (fun a b => ptLE a b = true) (mkPoints events)
    let final ← points.foldlM (reduceStep policy) reduceInit
    some (mergePass merge final.result)

/-! ## MIDI timeline builder (`midi_bytes_to_song`)

The embedding starts just after `Smf::parse`: the input is the per-track
list of delta-timed events (note-on/note-off/tempo metas) together with the
metrical `ticks_per_quarter` constant.  The SMPTE-timecode rejection and the
byte-level parse failure happen at that discarded boundary. -/

/-- The track-event kinds relevant to the builder loop. -/
inductive MidiMsg where
  | noteOn (channel key vel : ℕ)
  | noteOff (channel key : ℕ)
  | tempo (mpqn : ℕ)
  | other
deriving DecidableEq, Repr

/-- One delta-timed track event. -/
structure TrackEvent where
  delta : ℕ
  kind : MidiMsg
deriving DecidableEq, Repr

/-- Struct `NoteInterval` from `midi_importer.rs`. -/
structure NoteInterval where
  midi : ℕ
  start_tick : ℕ
  end_tick : ℕ
  velocity : ℕ
  channel : ℕ
deriving DecidableEq, Repr

/-- The `open_notes` map: `(channel, pitch)` keyed stacks of
`(start_tick, velocity)`.  Iteration order of the Rust `HashMap` is
unspecified; it is modelled as first-insertion order. -/
abbrev OpenNotes := List ((ℕ × ℕ) × List (ℕ × ℕ))

/-- Push onto the per-key stack (`entry(..).or_default().push(..)`). -/
def openPush (k : ℕ × ℕ) (v : ℕ × ℕ) : OpenNotes → OpenNotes
  | [] => [(k, [v])]
  | e :: rest =>
    if e.1 = k then (k, e.2 ++ [v]) :: rest else e :: openPush k v rest

/-- Pop from the per-key stack; the entry itself stays in the map (as in the
source, which only pops the `Vec`).  Returns the popped element, if any. -/
def openPop (k : ℕ × ℕ) : OpenNotes → Option (ℕ × ℕ) × OpenNotes
  | [] => (none, [])
  | e :: rest =>
    if e.1 = k then
      match e.2.getLast? with
      | some v => (some v, (e.1, e.2.dropLast) :: rest)
      | none => (none, e :: rest)
    else
      let p := openPop k rest
      (p.1, e :: p.2)

/-- The builder state while scanning the tracks. -/
structure ExtractState where
  tempo_changes : List (ℕ × ℕ)
  intervals : List NoteInterval
  open_notes : OpenNotes
deriving DecidableEq, Repr

/-- Function `close_note` from `midi_importer.rs`: pop the matching open note and emit
an interval; an orphaned note-off is dropped. -/
def close_note (st : ExtractState) (ch midi_num abs_tick : ℕ) : ExtractState :=
  match openPop (ch, midi_num) st.open_notes with
  | (some sv, opens) =>
    { st with
        open_notes := opens,
        intervals := st.intervals ++ [⟨midi_num, sv.1, abs_tick, sv.2, ch⟩] }
  | (none, opens) => { st with open_notes := opens }

/-- One iteration of the inner track loop (after the delta has been added to
the running absolute tick).  A note-on with velocity 0 is an implicit
note-off. -/
def track_step (st : ExtractState) (abs_tick : ℕ) : MidiMsg → ExtractState
  | .noteOn ch key vel =>
    if vel = 0 then
      close_note st ch key abs_tick
    else
      { st with open_notes := openPush (ch, key) (abs_tick, vel) st.open_notes }
  | .noteOff ch key => close_note st ch key abs_tick
  | .tempo mpqn => { st with tempo_changes := st.tempo_changes ++ [(abs_tick, mpqn)] }
  | .other => st

/-- Scan one track, accumulating the absolute tick from the deltas. -/
def scan_track (st : ExtractState) (track : List TrackEvent) : ExtractState :=
  (track.foldl
      (fun acc ev =>
        let tick := acc.2 + ev.delta
        (track_step acc.1 tick ev.kind, tick))
      (st, 0)).1

/-- Scan all tracks; `tempo_changes` starts with the implicit default tempo
at tick 0. -/
def process_tracks (tracks : List (List TrackEvent)) : ExtractState :=
  tracks.foldl scan_track ⟨[(0, DEFAULT_MPQN)], [], []⟩

/-- Value `last_tick_estimate`: the maximum closed-interval end tick, joined with
the maximum tempo-change tick (each defaulting to 0). -/
def last_tick_estimate (st : ExtractState) : ℕ :=
  max ((st.intervals.map (fun iv => iv.end_tick)).foldr max 0)
    ((st.tempo_changes.map (fun tc => tc.1)).foldr max 0)

/-- The auto-close end tick for an unmatched activation at `start_tick`. -/
def auto_close_end (last_tick start_tick ticks_per_quarter : ℕ) : ℕ :=
  if last_tick > start_tick then last_tick else start_tick + ticks_per_quarter

/-- Append an auto-closed interval for every entry left in `open_notes`
(the `for ((ch, key), stack) in open_notes` loop). -/
def finalize_intervals (ticks_per_quarter : ℕ) (st : ExtractState) :
    List NoteInterval :=
  let last := last_tick_estimate st
  st.intervals ++
    st.open_notes.flatMap
      (fun e =>
        e.2.map
          (fun sv =>
            ⟨e.1.2, sv.1, auto_close_end last sv.1 ticks_per_quarter, sv.2, e.1.1⟩))

/-- Struct `TempoSegment` from `midi_importer.rs`. -/
structure TempoSegment where
  mpqn : ℕ
  start_tick : ℕ
  ms_at_start : ℚ
deriving DecidableEq, Repr

/-- The fold that turns the tick-sorted tempo changes into segments,
discarding non-monotonic entries and accumulating elapsed milliseconds. -/
def build_tempo_segments (ticks_per_quarter : ℕ) (changes : List (ℕ × ℕ)) :
    List TempoSegment :=
  let sorted := List.insertionSort (fun a b : ℕ × ℕ => a.1 ≤ b.1) changes
  (sorted.foldl
      (fun acc tc =>
        let last_tick := acc.2.1
        let ms_accum := acc.2.2.1
        let last_mpqn := acc.2.2.2
        if tc.1 < last_tick then acc
        else
          let ms :=
            if tc.1 > last_tick then
              ms_accum +
                ((tc.1 - last_tick : ℕ) : ℚ) * (last_mpqn : ℚ)
                  / (ticks_per_quarter : ℚ) / 1000
            else ms_accum
          (acc.1 ++ [⟨tc.2, tc.1, ms⟩], tc.1, ms, tc.2))
      ([], 0, 0, DEFAULT_MPQN)).1

instance : Inhabited TempoSegment := ⟨⟨DEFAULT_MPQN, 0, 0⟩⟩

/-- The `ticks_to_ms` closure: locate the last segment whose start is at or
before the tick and interpolate linearly at its fixed tempo. -/
def ticks_to_ms (ticks_per_quarter : ℕ) (segs : List TempoSegment) (tick : ℕ) : ℚ :=
  if segs.isEmpty then
    (tick : ℚ) * (DEFAULT_MPQN : ℚ) / (ticks_per_quarter : ℚ) / 1000
  else
    let seg :=
      ((segs.reverse.find? (fun s => s.start_tick ≤ tick)).getD
        (segs.headI))
    seg.ms_at_start +
      ((tick - seg.start_tick : ℕ) : ℚ) * (seg.mpqn : ℚ)
        / (ticks_per_quarter : ℚ) / 1000

/-- The octave-folding `while` loop: at most 8 attempts of moving the pitch
by ±12 semitones towards the clip range. -/
def octave_fold (min_id max_id : ℤ) : ℕ → ℤ → ℤ
  | 0, note_id => note_id
  | fuel + 1, note_id =>
    if note_id < min_id || note_id > max_id then
      octave_fold min_id max_id fuel
        (if note_id < min_id then note_id + 12 else note_id - 12)
    else note_id

/-- Transpose one pitch, then clip/fold it into the optional range and check
the absolute MIDI range `0..=127`; `none` means the note is dropped. -/
def transpose_clip (midi : ℕ) (transpose_semitones : ℤ)
    (clip_to_range : Option (ℕ × ℕ)) : Option ℕ :=
  let note_id : ℤ := (midi : ℤ) + transpose_semitones
  let folded : Option ℤ :=
    match clip_to_range with
    | some r =>
      let min_id : ℤ := (r.1 : ℤ)
      let max_id : ℤ := (r.2 : ℤ)
      let n := octave_fold min_id max_id 8 note_id
      if n < min_id || n > max_id then none else some n
    | none => some note_id
  match folded with
  | none => none
  | some n => if n < 0 || n > 127 then none else some n.toNat

/-- Turn one interval into a raw event: transpose/clip the pitch, convert the
tick range to milliseconds, and drop empty or sub-epsilon durations. -/
def interval_to_event (to_ms : ℕ → ℚ) (transpose_semitones : ℤ)
    (clip_to_range : Option (ℕ × ℕ)) (iv : NoteInterval) : Option Event :=
  match transpose_clip iv.midi transpose_semitones clip_to_range with
  | none => none
  | some nid =>
    let start_ms := to_ms iv.start_tick
    let end_ms := to_ms iv.end_tick
    if end_ms ≤ start_ms then none
    else if end_ms - start_ms < EPSILON_MS then none
    else some ⟨⟨nid, iv.velocity⟩, start_ms, end_ms - start_ms⟩

/-- The raw event list of `midi_bytes_to_song` just before the reduction:
extract intervals, auto-close dangling note-ons, build the tempo map,
transpose/clip, convert to milliseconds, and sort by start time (a stable
`sort_by` on `time_ms`). -/
def sorted_raw_events (tracks : List (List TrackEvent))
    (ticks_per_quarter : ℕ) (transpose_semitones : ℤ)
    (clip_to_range : Option (ℕ × ℕ)) : List Event :=
  let st := process_tracks tracks
  let intervals := finalize_intervals ticks_per_quarter st
  let segs := build_tempo_segments ticks_per_quarter st.tempo_changes
  let to_ms := ticks_to_ms ticks_per_quarter segs
  let raw_events :=
    intervals.filterMap (interval_to_event to_ms transpose_semitones clip_to_range)
  List.insertionSort (fun a b : Event => a.time_ms ≤ b.time_ms) raw_events

/-- The display tempo: segment 1 if present (segment 0 is the synthetic
default), else the default tempo. -/
def song_tempo_bpm (tracks : List (List TrackEvent)) (ticks_per_quarter : ℕ) :
    Option ℚ :=
  match (build_tempo_segments ticks_per_quarter
      (process_tracks tracks).tempo_changes).get? 1 with
  | some seg => some (MICROSECONDS_PER_MINUTE / (seg.mpqn : ℚ))
  | none => some (MICROSECONDS_PER_MINUTE / (DEFAULT_MPQN : ℚ))

/-- Function `midi_bytes_to_song` from just after the parse: build the sorted raw
events, reduce to monophony, and cull sub-epsilon events.  `none` is the
panic of the unimplemented `Densest` policy. -/
def midi_bytes_to_song (tracks : List (List TrackEvent))
    (ticks_per_quarter : ℕ) (title : Option String) (transpose_semitones : ℤ)
    (policy : PolyPolicy) (merge : Bool) (clip_to_range : Option (ℕ × ℕ)) :
    Option Song :=
  match reduce_to_monophonic
      (sorted_raw_events tracks ticks_per_quarter transpose_semitones
        clip_to_range) policy merge with
  | none => none
  | some reduced =>
    some ⟨⟨title, song_tempo_bpm tracks ticks_per_quarter⟩,
      reduced.filter (fun ev => ¬ ev.duration_ms < EPSILON_MS)⟩

/-! ## Actuation engine (`src/engine/mod.rs`)

`InputEngine::key_press` is a straight-line sequence of `key_down`,
`key_up` and `sleep` calls; its observable behaviour is the emitted call
trace, modelled as a list of actions (assuming the injected primitives
succeed — on a primitive failure the source returns early, which only
truncates the trace). -/

/-- A platform key identity (`VIRTUAL_KEY`). -/
abbrev VKey := ℕ

/-- Key `VK_NUMPAD5`, the sound-producing ("play") key. -/
def PLAY_KEY : VKey := 101

/-- Struct `Input` from the key mappings: one note's key combination. -/
structure Input where
  keys : List VKey
  note_label : String
deriving DecidableEq, Repr

/-- The `play_key` input constructed inside `key_press`. -/
def play_input : Input := ⟨[PLAY_KEY], "play_key"⟩

/-- One observable engine call. -/
inductive EngineAction where
  | key_down (input : Input)
  | key_up (input : Input)
  | sleep (ms : ℚ)
deriving DecidableEq, Repr

/-- Method `InputEngine::key_press`: reject a non-positive hold, derive the held and
released portions from the articulation fraction, and emit the press/release
envelope around the note-selection combination. -/
def key_press (input : Input) (hold_ms articulation : ℚ) :
    Except String (List EngineAction) :=
  if hold_ms ≤ 0 then
    .error "hold_ms must be greater than 0..!"
  else
    let p :=
      if articulation > 0 && articulation < 1 then
        (hold_ms * articulation, hold_ms * (1 - articulation))
      else (hold_ms, 0)
    let q := if p.1 ≤ 0 then (hold_ms, (0 : ℚ)) else p
    .ok
      ([.key_down input, .sleep 1,
        .key_down play_input, .sleep q.1,
        .key_up play_input, .sleep 1,
        .key_up input] ++
        (if q.2 > 0 then [.sleep q.2] else []))

/-! ## Playback scheduler (`src/player.rs`)

The `Player` owns three mutexed fields: the loaded schedule, the control
channel sender, and the background worker's join handle.  The methods are
modelled as functions on that state; the worker thread itself never touches
the `Player` fields, so its normal exit is the identity on them. -/

/-- Struct `ScheduledEvent` from `player.rs`. -/
structure ScheduledEvent where
  time_ms : ℚ
  duration_ms : ℚ
  input : Input
deriving DecidableEq, Repr

/-- The mutexed fields of a `Player` (the engine and config are immutable). -/
structure PlayerState where
  schedule : List ScheduledEvent
  control_tx : Option Unit
  worker_handle : Option Unit
deriving DecidableEq, Repr

/-- Result of a `play`/`stop` call: the new field state, the error if the
call failed, and whether a worker thread was spawned during the call. -/
structure CallResult where
  state : PlayerState
  error : Option String
  spawned : Bool
deriving DecidableEq, Repr

/-- Method `Player::play`: reject when a worker handle is present or the schedule is
empty; otherwise install a fresh control channel and spawn the worker.  In
blocking mode (`join = true`) the handle is joined, not stored; otherwise it
is stored in `worker_handle`. -/
def Player.play (s : PlayerState) (join : Bool) : CallResult :=
  if s.worker_handle.isSome then
    ⟨s, some "Playback already running..!", false⟩
  else if s.schedule.isEmpty then
    ⟨s, some "No song loaded..!", false⟩
  else
    let s1 : PlayerState := { s with control_tx := some () }
    if join then
      ⟨s1, none, true⟩
    else
      ⟨{ s1 with worker_handle := some () }, none, true⟩

/-- The worker thread finishing all scheduled events and exiting normally:
this mutates none of the `Player` fields (in particular it does not clear
`worker_handle`). -/
def worker_finishes (s : PlayerState) : PlayerState := s

/-- Method `Player::stop`: take the control sender (erroring when none is present),
then take and join the worker handle. -/
def Player.stop (s : PlayerState) : PlayerState × Option String :=
  match s.control_tx with
  | none => ({ s with control_tx := none }, some "No worker is running playback..!")
  | some _ => (⟨s.schedule, none, none⟩, none)

/-! ## Auxiliary definitions for the statements -/

/-- Non-overlap of two events: the first ends at or before the second
starts. -/
def EndsBefore (a b : Event) : Prop :=
  a.time_ms + a.duration_ms ≤ b.time_ms

instance : DecidableRel EndsBefore := fun a b =>
  inferInstanceAs (Decidable (a.time_ms + a.duration_ms ≤ b.time_ms))

/-- A sample note-selection input (the A4 mapping). -/
def demo_input : Input := ⟨[49, 102], "A4 (69)"⟩

/-- A sample loaded schedule entry. -/
def demo_event : ScheduledEvent := ⟨0, 100, demo_input⟩

/-- A `Player` that has loaded a one-event song and has never played. -/
def demo_loaded : PlayerState := ⟨[demo_event], none, none⟩

/-! ## Theorems -/

/-- C1: In every execution of `key_press` with a positive hold duration, the
`key_down` for the sound-producing actuation (the play key) is emitted
strictly after the `key_down` for the note-selection actuation (trace
indices 2 and 0), and the `key_up` for the play key is emitted strictly
before the `key_up` for the note-selection actuation (trace indices 4 and
6); when the note-selection input is distinct from the play input, each of
the four actuations occurs exactly once in the trace, so these index facts
capture the emission order of the four actuations. -/
theorem C1_key_press_envelope_order (input : Input) (hold_ms articulation : ℚ)
    (trace : List EngineAction) (hpos : 0 < hold_ms)
    (h : key_press input hold_ms articulation = .ok trace) :
    (trace.get? 0 = some (.key_down input) ∧
      trace.get? 2 = some (.key_down play_input) ∧
      trace.get? 4 = some (.key_up play_input) ∧
      trace.get? 6 = some (.key_up input)) ∧
    (input ≠ play_input →
      trace.count (.key_down input) = 1 ∧
      trace.count (.key_down play_input) = 1 ∧
      trace.count (.key_up input) = 1 ∧
      trace.count (.key_up play_input) = 1) := by
  have hne : ¬ hold_ms ≤ 0 := not_le.mpr hpos
  rw [key_press, if_neg hne] at h
  set p := if articulation > 0 && articulation < 1 then
      (hold_ms * articulation, hold_ms * (1 - articulation))
    else (hold_ms, (0 : ℚ)) with hp
  set q := if p.1 ≤ 0 then (hold_ms, (0 : ℚ)) else p with hq
  have htr : trace =
      [.key_down input, .sleep 1, .key_down play_input, .sleep q.1,
        .key_up play_input, .sleep 1, .key_up input] ++
        (if q.2 > 0 then [.sleep q.2] else []) := by
    exact (Except.ok.inj h).symm
  subst htr
  constructor
  · exact ⟨rfl, rfl, rfl, rfl⟩
  · intro hni
    have hd : (EngineAction.key_down input) ≠ (EngineAction.key_down play_input) := by
      simpa using hni
    have hu : (EngineAction.key_up input) ≠ (EngineAction.key_up play_input) := by
      simpa using hni
    by_cases hq2 : q.2 > 0 <;>
      simp [hq2, List.count_cons, List.count_append, hd, hu, Ne.symm hd, Ne.symm hu]

/-- Witness for C1 at a concrete call: the A4 input held 100 ms with
articulation 3/4. -/
theorem C1_witness :
    (List.get? [EngineAction.key_down demo_input, .sleep 1,
        .key_down play_input, .sleep 75, .key_up play_input, .sleep 1,
        .key_up demo_input, .sleep 25] 0) = some (.key_down demo_input) ∧
    (List.get? [EngineAction.key_down demo_input, .sleep 1,
        .key_down play_input, .sleep 75, .key_up play_input, .sleep 1,
        .key_up demo_input, .sleep 25] 2) = some (.key_down play_input) ∧
    (List.get? [EngineAction.key_down demo_input, .sleep 1,
        .key_down play_input, .sleep 75, .key_up play_input, .sleep 1,
        .key_up demo_input, .sleep 25] 4) = some (.key_up play_input) ∧
    (List.get? [EngineAction.key_down demo_input, .sleep 1,
        .key_down play_input, .sleep 75, .key_up play_input, .sleep 1,
        .key_up demo_input, .sleep 25] 6) = some (.key_up demo_input) ∧
    List.count (EngineAction.key_down play_input)
      [EngineAction.key_down demo_input, .sleep 1, .key_down play_input,
        .sleep 75, .key_up play_input, .sleep 1, .key_up demo_input,
        .sleep 25] = 1 ∧
    List.count (EngineAction.key_up play_input)
      [EngineAction.key_down demo_input, .sleep 1, .key_down play_input,
        .sleep 75, .key_up play_input, .sleep 1, .key_up demo_input,
        .sleep 25] = 1 := by
  have h := C1_key_press_envelope_order demo_input 100 (3 / 4)
    [EngineAction.key_down demo_input, .sleep 1, .key_down play_input,
      .sleep 75, .key_up play_input, .sleep 1, .key_up demo_input, .sleep 25]
    (by norm_num) (by norm_num [key_press, demo_input, play_input])
  obtain ⟨⟨h0, h2, h4, h6⟩, hcnt⟩ := h
  obtain ⟨_, hc2, _, hc4⟩ := hcnt (by decide)
  exact ⟨h0, h2, h4, h6, hc2, hc4⟩

/-- C3, counterexample: after a non-blocking `play` whose worker has
completed all events and exited normally, the worker handle is still stored,
so a subsequent `play` on the same instance (schedule still loaded and
non-empty) is rejected as already running, contradicting the claim that the
player is back in the Idle state for non-blocking play as well. -/
theorem C3_counterexample :
    (Player.play demo_loaded false).error = none ∧
    (Player.play (worker_finishes (Player.play demo_loaded false).state)
        false).error = some "Playback already running..!" := by
  decide

/-- C3 (amended): after a *blocking* `play` call completes, the worker handle
was never stored and a subsequent `play` with the loaded non-empty schedule
succeeds.  After a *non-blocking* `play`, the worker's normal exit leaves the
stored handle in place, so a subsequent `play` is rejected as already
running until `stop` is called, after which `play` succeeds again. -/
theorem C3_amended_replay (s : PlayerState)
    (hworker : s.worker_handle = none) (hsched : s.schedule ≠ []) :
    ((Player.play s true).error = none ∧
      (Player.play (worker_finishes (Player.play s true).state) true).error =
        none) ∧
    ((Player.play s false).error = none ∧
      (Player.play (worker_finishes (Player.play s false).state) false).error =
        some "Playback already running..!" ∧
      (Player.play
          (Player.stop (worker_finishes (Player.play s false).state)).1
          false).error = none) := by
  have hempty : s.schedule.isEmpty = false := by
    simpa [List.isEmpty_iff] using hsched
  simp [Player.play, Player.stop, worker_finishes, hworker, hempty]

/-- Witness for C3 (amended) at the one-event loaded player. -/
theorem C3_amended_replay_witness :
    ((Player.play demo_loaded true).error = none ∧
      (Player.play (worker_finishes (Player.play demo_loaded true).state)
          true).error = none) ∧
    ((Player.play demo_loaded false).error = none ∧
      (Player.play (worker_finishes (Player.play demo_loaded false).state)
          false).error = some "Playback already running..!" ∧
      (Player.play
          (Player.stop (worker_finishes (Player.play demo_loaded false).state)).1
          false).error = none) :=
  C3_amended_replay demo_loaded (by decide) (by decide)

/-- C4, counterexample: after a blocking `play` that ran to completion there
is no worker handle and no running worker, yet `stop` succeeds (it errors
only when the control channel is absent), contradicting the claim that
`stop` returns an error when no worker is running. -/
theorem C4_counterexample :
    (Player.play demo_loaded true).error = none ∧
    (Player.play demo_loaded true).state.worker_handle = none ∧
    (Player.stop (Player.play demo_loaded true).state).2 = none := by
  decide

/-- C4 (amended): `play` returns an error, spawns no worker and leaves the
state unchanged when a worker handle is present or the loaded schedule is
empty; `stop` returns an error with the state unchanged exactly when no
control channel is present (no run was started since the last `stop`),
which is a weaker condition than no worker running. -/
theorem C4_amended_rejections (s : PlayerState) (join : Bool) :
    (s.worker_handle.isSome = true →
      Player.play s join = ⟨s, some "Playback already running..!", false⟩) ∧
    (s.worker_handle = none → s.schedule = [] →
      Player.play s join = ⟨s, some "No song loaded..!", false⟩) ∧
    (s.control_tx = none →
      Player.stop s = (s, some "No worker is running playback..!")) := by
  refine ⟨fun h => ?_, fun h1 h2 => ?_, fun h => ?_⟩
  · simp [Player.play, h]
  · simp [Player.play, h1, h2]
  · cases s with
    | mk sched ctl wh => cases h; simp [Player.stop]

/-- Witness for C4 (amended) at concrete player states. -/
theorem C4_amended_rejections_witness :
    (Player.play ⟨[demo_event], none, some ()⟩ true =
      ⟨⟨[demo_event], none, some ()⟩, some "Playback already running..!",
        false⟩) ∧
    (Player.play (⟨[], none, none⟩ : PlayerState) false =
      ⟨⟨[], none, none⟩, some "No song loaded..!", false⟩) ∧
    (Player.stop demo_loaded =
      (demo_loaded, some "No worker is running playback..!")) :=
  ⟨(C4_amended_rejections ⟨[demo_event], none, some ()⟩ true).1 (by decide),
   (C4_amended_rejections ⟨[], none, none⟩ false).2.1 (by decide) (by decide),
   (C4_amended_rejections demo_loaded true).2.2 (by decide)⟩

/-- C5: On the overlapping intervals (69, v1, 0, 1000) and (77, v2, 500,
1000) the `Highest` policy yields exactly (69, 0, 500) then (77, 500, 1000);
with the pitches swapped the `Lowest` policy yields (77, 0, 500) then
(69, 500, 1000); and the `Loudest` policy picks the louder active pitch at
each boundary regardless of pitch order (shown in both pitch orders, with
the louder note lower and higher respectively).  Events are projected to
(pitch, start, duration); the equalities are exact, hence within epsilon. -/
theorem C5_policy_correctness :
    (∀ v1 v2 : ℕ,
      (reduce_to_monophonic [⟨⟨69, v1⟩, 0, 1000⟩, ⟨⟨77, v2⟩, 500, 1000⟩]
          .Highest false).map
        (fun l => l.map fun e => (e.note.midi, e.time_ms, e.duration_ms)) =
      some [(69, 0, 500), (77, 500, 1000)]) ∧
    (∀ v1 v2 : ℕ,
      (reduce_to_monophonic [⟨⟨77, v1⟩, 0, 1000⟩, ⟨⟨69, v2⟩, 500, 1000⟩]
          .Lowest false).map
        (fun l => l.map fun e => (e.note.midi, e.time_ms, e.duration_ms)) =
      some [(77, 0, 500), (69, 500, 1000)]) ∧
    ((reduce_to_monophonic [⟨⟨77, 128⟩, 0, 1000⟩, ⟨⟨69, 255⟩, 500, 1000⟩]
        .Loudest false).map
      (fun l => l.map fun e => (e.note.midi, e.time_ms, e.duration_ms)) =
      some [(77, 0, 500), (69, 500, 1000)]) ∧
    ((reduce_to_monophonic [⟨⟨69, 255⟩, 0, 1000⟩, ⟨⟨77, 128⟩, 500, 1000⟩]
        .Loudest false).map
      (fun l => l.map fun e => (e.note.midi, e.time_ms, e.duration_ms)) =
      some [(69, 0, 1000), (77, 1000, 500)]) := by
  refine ⟨fun v1 v2 => ?_, fun v1 v2 => ?_, ?_, ?_⟩ <;>
    (simp [reduce_to_monophonic, mkPoints, List.insertionSort, List.orderedInsert, ptLE, reduceStep, closeSegment,
      chooseNote, activeInsert, activeErase, reduceInit, mergePass,
      EPSILON_MS, List.foldlM, loudestOf];
     norm_num [mergeStep])

/-- C10: Each event emitted by the reduction carries the velocity of the
boundary point that closed its segment, not the recorded velocity of the
note whose pitch it carries: here the pitch-69 output event has velocity 20
(the velocity of the pitch-77 note whose start closed the segment), while
the only source note of pitch 69 has velocity 10. -/
theorem C10_velocity_from_closing_boundary :
    reduce_to_monophonic [⟨⟨69, 10⟩, 0, 1000⟩, ⟨⟨77, 20⟩, 500, 1000⟩]
        .Highest false =
      some [⟨⟨69, 20⟩, 0, 500⟩, ⟨⟨77, 20⟩, 500, 1000⟩] ∧
    (∀ e ∈ [(⟨⟨69, 10⟩, 0, 1000⟩ : Event), ⟨⟨77, 20⟩, 500, 1000⟩],
      e.note.midi = 69 → e.note.velocity = 10) ∧
    (20 : ℕ) ≠ 10 := by
  refine ⟨?_, by decide, by decide⟩
  simp [reduce_to_monophonic, mkPoints, List.insertionSort, List.orderedInsert, ptLE, reduceStep, closeSegment,
    chooseNote, activeInsert, activeErase, reduceInit, mergePass,
    EPSILON_MS, List.foldlM, loudestOf]
  norm_num [mergeStep]

/-- With the merge flag off the merge-pass fold only re-appends every
event. -/
theorem mergeStep_false_eq (acc : List Event × Option Event) (ev : Event) :
    mergeStep false acc ev = (acc.1 ++ acc.2.toList, some ev) := by
  rcases acc with ⟨init, lastO⟩
  cases lastO <;> simp [mergeStep]

theorem mergePass_false_fold (l : List Event) :
    ∀ acc : List Event × Option Event,
      (l.foldl (mergeStep false) acc).1 ++
          (l.foldl (mergeStep false) acc).2.toList =
        acc.1 ++ acc.2.toList ++ l := by
  induction l with
  | nil => intro acc; simp
  | cons e l ih =>
    intro acc
    rw [List.foldl_cons, mergeStep_false_eq]
    rw [ih]
    simp

/-- C7, counterexample: two consecutive reduced events of the same pitch
(60) with a 1 ms gap — within the 2 ms epsilon — are *not* coalesced by the
merge pass when their velocities differ, because the merge condition
compares the whole note (pitch and velocity): the output still has both
events. -/
theorem C7_counterexample :
    reduce_to_monophonic [⟨⟨60, 10⟩, 0, 500⟩, ⟨⟨60, 20⟩, 501, 500⟩]
        .Lowest true =
      some [⟨⟨60, 10⟩, 0, 500⟩, ⟨⟨60, 20⟩, 501, 500⟩] ∧
    (⟨⟨60, 10⟩, 0, 500⟩ : Event).note.midi =
      (⟨⟨60, 20⟩, 501, 500⟩ : Event).note.midi ∧
    (501 : ℚ) - (0 + 500) ≤ EPSILON_MS := by
  refine ⟨?_, by decide, by norm_num [EPSILON_MS]⟩
  simp [reduce_to_monophonic, mkPoints, List.insertionSort, List.orderedInsert, ptLE, reduceStep, closeSegment,
    chooseNote, activeInsert, activeErase, reduceInit, mergePass,
    EPSILON_MS, List.foldlM, loudestOf]
  norm_num [mergeStep, mergeStep_false_eq]

/-- C7 (amended): when the merge flag is true, two consecutive reduced
events with the same *note* (equal pitch and equal velocity) whose gap is
within the 2 ms epsilon are coalesced into one event whose duration is the
sum of both durations plus the gap; when the flag is false the merge pass
leaves any event list completely unchanged. -/
theorem C7_amended_merge :
    (∀ l : List Event, mergePass false l = l) ∧
    (∀ e1 e2 : Event, e1.note = e2.note →
      e1.time_ms + e1.duration_ms ≤ e2.time_ms →
      e2.time_ms ≤ e1.time_ms + e1.duration_ms + EPSILON_MS →
      0 ≤ e2.duration_ms →
      mergePass true [e1, e2] =
        [⟨e1.note, e1.time_ms,
          e1.duration_ms + (e2.time_ms - (e1.time_ms + e1.duration_ms)) +
            e2.duration_ms⟩]) := by
  constructor
  · intro l
    have h := mergePass_false_fold l ([], none)
    simpa [mergePass] using h
  · intro e1 e2 hnote hgap1 hgap2 hdur
    have hbeq : (e1.note == e2.note) = true := by
      simp [hnote]
    have habs : |e1.time_ms + e1.duration_ms - e2.time_ms| ≤ EPSILON_MS := by
      rw [abs_le]
      constructor <;> linarith
    have hmax : max (e1.time_ms + e1.duration_ms) (e2.time_ms + e2.duration_ms)
        = e2.time_ms + e2.duration_ms := by
      rw [max_eq_right]
      linarith
    simp [mergePass, mergeStep, hbeq, habs, hmax]
    ring

/-- Witness for C7 (amended): the repository's own merge test pair, velocity
255 on both events, 1 ms gap, merged duration 500 + 1 + 500. -/
theorem C7_amended_merge_witness :
    mergePass false [⟨⟨60, 255⟩, 0, 500⟩, ⟨⟨60, 255⟩, 501, 500⟩] =
      [⟨⟨60, 255⟩, 0, 500⟩, ⟨⟨60, 255⟩, 501, 500⟩] ∧
    mergePass true [⟨⟨60, 255⟩, 0, 500⟩, ⟨⟨60, 255⟩, 501, 500⟩] =
      [⟨⟨60, 255⟩, 0, 1001⟩] := by
  constructor
  · exact C7_amended_merge.1 _
  · have h := C7_amended_merge.2 ⟨⟨60, 255⟩, 0, 500⟩ ⟨⟨60, 255⟩, 501, 500⟩
      rfl (by norm_num) (by norm_num [EPSILON_MS]) (by norm_num)
    norm_num at h
    exact h

/-- C8, counterexample: a closed note (ticks 0–100) followed by an unmatched
activation at tick 200 (timeline not otherwise empty): the code auto-closes
the activation at 200 + 480 (one quarter note) = 680, not at the timeline's
last observed tick (100, or 200 counting the activation itself). -/
theorem C8_counterexample :
    finalize_intervals 480
        (process_tracks [[⟨0, .noteOn 0 60 64⟩, ⟨100, .noteOff 0 60⟩,
          ⟨100, .noteOn 0 62 64⟩]]) =
      [⟨60, 0, 100, 64, 0⟩, ⟨62, 200, 680, 64, 0⟩] ∧
    (680 : ℕ) ≠ 100 ∧ (680 : ℕ) ≠ 200 := by
  decide

/-- C8 (amended): the builder never fails on an activation with no matching
deactivation: every entry left on an open-note stack yields an interval in
the final list, auto-closed at the maximum of closed-interval end ticks and
tempo-change ticks when that maximum exceeds the activation tick, and at
the activation tick plus one quarter note of ticks otherwise. -/
theorem C8_amended_auto_close (tracks : List (List TrackEvent)) (tpq : ℕ)
    (k : ℕ × ℕ) (stack : List (ℕ × ℕ)) (sv : ℕ × ℕ)
    (hk : (k, stack) ∈ (process_tracks tracks).open_notes)
    (hsv : sv ∈ stack) :
    (⟨k.2, sv.1,
        auto_close_end (last_tick_estimate (process_tracks tracks)) sv.1 tpq,
        sv.2, k.1⟩ : NoteInterval) ∈
      finalize_intervals tpq (process_tracks tracks) ∧
    (∀ last start q : ℕ,
      auto_close_end last start q = if start < last then last else start + q) := by
  refine ⟨?_, fun last start q => rfl⟩
  unfold finalize_intervals
  refine List.mem_append_right _ ?_
  rw [List.mem_flatMap]
  exact ⟨(k, stack), hk, List.mem_map.mpr ⟨sv, hsv, rfl⟩⟩

/-- Witness for C8 (amended) at the concrete track with a dangling
activation at tick 200. -/
theorem C8_amended_auto_close_witness :
    (⟨62, 200,
        auto_close_end
          (last_tick_estimate (process_tracks
            [[⟨0, .noteOn 0 60 64⟩, ⟨100, .noteOff 0 60⟩,
              ⟨100, .noteOn 0 62 64⟩]]))
          200 480,
        64, 0⟩ : NoteInterval) ∈
      finalize_intervals 480
        (process_tracks [[⟨0, .noteOn 0 60 64⟩, ⟨100, .noteOff 0 60⟩,
          ⟨100, .noteOn 0 62 64⟩]]) ∧
    auto_close_end 100 200 480 = if 200 < 100 then 100 else 200 + 480 := by
  have h := C8_amended_auto_close
    [[⟨0, .noteOn 0 60 64⟩, ⟨100, .noteOff 0 60⟩, ⟨100, .noteOn 0 62 64⟩]]
    480 (0, 62) [(200, 64)] (200, 64) (by decide) (by decide)
  exact ⟨h.1, h.2 100 200 480⟩

/-! ### Sweep-line invariants for C2 -/

theorem ptLE_trans (a b c : Point) (h1 : ptLE a b = true) (h2 : ptLE b c = true) :
    ptLE a c = true := by
  simp only [ptLE, Bool.or_eq_true, Bool.and_eq_true, decide_eq_true_eq,
    beq_iff_eq, Bool.not_eq_true'] at h1 h2 ⊢
  rcases h1 with h1 | ⟨h1e, h1b⟩ <;> rcases h2 with h2 | ⟨h2e, h2b⟩
  · exact Or.inl (h1.trans h2)
  · exact Or.inl (h2e ▸ h1)
  · exact Or.inl (h1e ▸ h2)
  · refine Or.inr ⟨h1e.trans h2e, ?_⟩
    rcases h1b with h1b | h1b
    · exact Or.inl h1b
    · rcases h2b with h2b | h2b
      · rw [h1b] at h2b; cases h2b
      · exact Or.inr h2b

theorem ptLE_total (a b : Point) : (ptLE a b || ptLE b a) = true := by
  simp only [ptLE, Bool.or_eq_true, Bool.and_eq_true, decide_eq_true_eq,
    beq_iff_eq, Bool.not_eq_true']
  rcases lt_trichotomy a.time_ms b.time_ms with h | h | h
  · exact Or.inl (Or.inl h)
  · cases hb : b.is_start
    · exact Or.inr (Or.inr ⟨h.symm, Or.inl rfl⟩)
    · exact Or.inl (Or.inr ⟨h, Or.inr rfl⟩)
  · exact Or.inr (Or.inl h)

theorem ptLE_time (a b : Point) (h : ptLE a b = true) :
    a.time_ms ≤ b.time_ms := by
  simp only [ptLE, Bool.or_eq_true, Bool.and_eq_true, decide_eq_true_eq,
    beq_iff_eq] at h
  rcases h with h | ⟨h, _⟩
  · exact le_of_lt h
  · exact le_of_eq h

/-- One sweep step preserves the emitted-list invariants: the result is
non-overlapping, every emitted duration exceeds epsilon, everything emitted
ends at or before the current point's time, and an open segment start is at
or before the current point's time and after everything emitted. -/
theorem reduceStep_inv (policy : PolyPolicy) (st st1 : RState) (pt : Point)
    (h : reduceStep policy st pt = some st1)
    (hres : st.result.Pairwise EndsBefore)
    (hdur : ∀ e ∈ st.result, EPSILON_MS < e.duration_ms)
    (hend : ∀ e ∈ st.result, e.time_ms + e.duration_ms ≤ pt.time_ms)
    (hcs : ∀ cs, st.current_start = some cs →
      (∀ e ∈ st.result, e.time_ms + e.duration_ms ≤ cs) ∧ cs ≤ pt.time_ms) :
    st1.result.Pairwise EndsBefore ∧
    (∀ e ∈ st1.result, EPSILON_MS < e.duration_ms) ∧
    (∀ e ∈ st1.result, e.time_ms + e.duration_ms ≤ pt.time_ms) ∧
    (∀ cs, st1.current_start = some cs →
      (∀ e ∈ st1.result, e.time_ms + e.duration_ms ≤ cs) ∧ cs ≤ pt.time_ms) := by
  have hkey :
      (closeSegment st.current_note st.current_start pt st.result).Pairwise
        EndsBefore ∧
      (∀ e ∈ closeSegment st.current_note st.current_start pt st.result,
        EPSILON_MS < e.duration_ms) ∧
      (∀ e ∈ closeSegment st.current_note st.current_start pt st.result,
        e.time_ms + e.duration_ms ≤ pt.time_ms) := by
    rcases hcn : st.current_note with _ | cn <;>
      rcases hcs0 : st.current_start with _ | cs0
    · exact ⟨by simpa [closeSegment, hcn, hcs0] using hres,
        by simpa [closeSegment, hcn, hcs0] using hdur,
        by simpa [closeSegment, hcn, hcs0] using hend⟩
    · exact ⟨by simpa [closeSegment, hcn, hcs0] using hres,
        by simpa [closeSegment, hcn, hcs0] using hdur,
        by simpa [closeSegment, hcn, hcs0] using hend⟩
    · exact ⟨by simpa [closeSegment, hcn, hcs0] using hres,
        by simpa [closeSegment, hcn, hcs0] using hdur,
        by simpa [closeSegment, hcn, hcs0] using hend⟩
    · obtain ⟨hA, hB⟩ := hcs cs0 hcs0
      by_cases htime : cs0 + EPSILON_MS < pt.time_ms
      · simp only [closeSegment]
        rw [if_pos htime]
        refine ⟨?_, ?_, ?_⟩
        · rw [List.pairwise_append]
          refine ⟨hres, by simp, ?_⟩
          intro a ha b hb
          simp only [List.mem_singleton] at hb
          subst hb
          exact hA a ha
        · intro e he
          rcases List.mem_append.mp he with he | he
          · exact hdur e he
          · simp only [List.mem_singleton] at he
            subst he
            simp only
            linarith
        · intro e he
          rcases List.mem_append.mp he with he | he
          · exact hend e he
          · simp only [List.mem_singleton] at he
            subst he
            simp only
            linarith
      · simp only [closeSegment]
        rw [if_neg htime]
        exact ⟨hres, hdur, hend⟩
  rw [reduceStep] at h
  rcases hch : chooseNote policy
      (if pt.is_start then
        activeInsert pt.midi (pt.time_ms + pt.duration_ms) pt.velocity st.active
      else activeErase pt.midi st.active) with _ | chosen
  · rw [hch] at h; cases h
  rw [hch] at h
  simp only at h
  by_cases hceq : chosen = st.current_note
  · rw [if_pos hceq] at h
    obtain rfl : st1 = ⟨st.result, st.current_note, st.current_start,
        if pt.is_start then
          activeInsert pt.midi (pt.time_ms + pt.duration_ms) pt.velocity st.active
        else activeErase pt.midi st.active⟩ := (Option.some.inj h).symm
    exact ⟨hres, hdur, hend, hcs⟩
  · rw [if_neg hceq] at h
    obtain ⟨k1, k2, k3⟩ := hkey
    rcases chosen with _ | c
    · obtain rfl : st1 = ⟨_, none, none, _⟩ := (Option.some.inj h).symm
      exact ⟨k1, k2, k3, fun cs hcs1 => by cases hcs1⟩
    · obtain rfl : st1 = ⟨_, some c, some pt.time_ms, _⟩ :=
        (Option.some.inj h).symm
      refine ⟨k1, k2, k3, fun cs hcs1 => ?_⟩
      obtain rfl : pt.time_ms = cs := Option.some.inj hcs1
      exact ⟨k3, le_refl _⟩

/-- The sweep fold over time-sorted points keeps the emitted list
non-overlapping with all durations above epsilon. -/
theorem sweep_fold_inv (policy : PolyPolicy) :
    ∀ (pts : List Point) (st st' : RState),
      pts.Pairwise (fun a b => a.time_ms ≤ b.time_ms) →
      st.result.Pairwise EndsBefore →
      (∀ e ∈ st.result, EPSILON_MS < e.duration_ms) →
      (∀ e ∈ st.result, ∀ p ∈ pts, e.time_ms + e.duration_ms ≤ p.time_ms) →
      (∀ cs, st.current_start = some cs →
        (∀ e ∈ st.result, e.time_ms + e.duration_ms ≤ cs) ∧
        ∀ p ∈ pts, cs ≤ p.time_ms) →
      pts.foldlM (reduceStep policy) st = some st' →
      st'.result.Pairwise EndsBefore ∧
        ∀ e ∈ st'.result, EPSILON_MS < e.duration_ms := by
  intro pts
  induction pts with
  | nil =>
    intro st st' _ hres hdur _ _ hfold
    obtain rfl : st = st' := by simpa using hfold
    exact ⟨hres, hdur⟩
  | cons pt rest ih =>
    intro st st' hpw hres hdur hend hcs hfold
    rw [List.foldlM_cons] at hfold
    rcases hstep : reduceStep policy st pt with _ | st1
    · rw [hstep] at hfold; cases hfold
    rw [hstep] at hfold
    simp only [Option.bind_eq_bind, Option.some_bind] at hfold
    obtain ⟨hhead, hpw_rest⟩ := List.pairwise_cons.mp hpw
    obtain ⟨h1, h2, h3, h4⟩ := reduceStep_inv policy st st1 pt hstep hres hdur
      (fun e he => hend e he pt (List.mem_cons_self pt rest))
      (fun cs hcs0 =>
        ⟨(hcs cs hcs0).1, (hcs cs hcs0).2 pt (List.mem_cons_self pt rest)⟩)
    exact ih st1 st' hpw_rest h1 h2
      (fun e he p hp => (h3 e he).trans (hhead p hp))
      (fun cs hcs1 =>
        ⟨(h4 cs hcs1).1, fun p hp => ((h4 cs hcs1).2).trans (hhead p hp)⟩)
      hfold

/-- The merge pass preserves non-overlap and epsilon-exceeding durations. -/
theorem mergeFold_inv :
    ∀ (rest init : List Event) (lastO : Option Event) (flag : Bool),
      (init ++ lastO.toList ++ rest).Pairwise EndsBefore →
      (∀ e ∈ init ++ lastO.toList ++ rest, EPSILON_MS < e.duration_ms) →
      ((rest.foldl (mergeStep flag) (init, lastO)).1 ++
          (rest.foldl (mergeStep flag) (init, lastO)).2.toList).Pairwise
        EndsBefore ∧
      ∀ e ∈ (rest.foldl (mergeStep flag) (init, lastO)).1 ++
          (rest.foldl (mergeStep flag) (init, lastO)).2.toList,
        EPSILON_MS < e.duration_ms := by
  intro rest
  induction rest with
  | nil =>
    intro init lastO flag hpw hdur
    constructor
    · simpa using hpw
    · simpa using hdur
  | cons ev rest ih =>
    intro init lastO flag hpw hdur
    rw [List.foldl_cons]
    rcases lastO with _ | last
    · have hstep : mergeStep flag (init, none) ev = (init, some ev) := by
        simp [mergeStep]
      rw [hstep]
      refine ih init (some ev) flag ?_ ?_
      · simpa using hpw
      · simpa using hdur
    · simp only [Option.toList_some] at hpw hdur
      rw [List.append_assoc, List.singleton_append] at hpw
      rw [List.pairwise_append] at hpw
      obtain ⟨pInit, pTail, pCross⟩ := hpw
      rw [List.pairwise_cons] at pTail
      obtain ⟨pLast, pTail⟩ := pTail
      rw [List.pairwise_cons] at pTail
      obtain ⟨pEvRest, pRest⟩ := pTail
      have hdur' : ∀ e, e ∈ init ∨ e = last ∨ e = ev ∨ e ∈ rest →
          EPSILON_MS < e.duration_ms := by
        intro e he
        apply hdur
        simp only [List.append_assoc, List.singleton_append, List.mem_append,
          List.mem_cons]
        tauto
      by_cases hc : (flag && last.note == ev.note &&
          decide (|last.time_ms + last.duration_ms - ev.time_ms| ≤ EPSILON_MS))
          = true
      · have hstep : mergeStep flag (init, some last) ev =
            (init, some ⟨last.note, last.time_ms,
              max (last.time_ms + last.duration_ms)
                  (ev.time_ms + ev.duration_ms) - last.time_ms⟩) := by
          simp only [mergeStep]
          rw [if_pos hc]
        rw [hstep]
        refine ih init _ flag ?_ ?_
        · simp only [Option.toList_some]
          rw [List.append_assoc, List.singleton_append, List.pairwise_append,
            List.pairwise_cons]
          refine ⟨pInit, ⟨?_, pRest⟩, ?_⟩
          · intro b hb
            simp only [EndsBefore]
            have h1 : last.time_ms + last.duration_ms ≤ b.time_ms :=
              pLast b (List.mem_cons_of_mem ev hb)
            have h2 : ev.time_ms + ev.duration_ms ≤ b.time_ms := pEvRest b hb
            have hmax : last.time_ms +
                (max (last.time_ms + last.duration_ms)
                  (ev.time_ms + ev.duration_ms) - last.time_ms) =
                max (last.time_ms + last.duration_ms)
                  (ev.time_ms + ev.duration_ms) := by ring
            rw [hmax]
            exact max_le h1 h2
          · intro a ha b hb
            rcases List.mem_cons.mp hb with hb | hb
            · subst hb
              have hab : EndsBefore a last :=
                pCross a ha last (List.mem_cons_self last _)
              simpa [EndsBefore] using hab
            · exact pCross a ha b
                (List.mem_cons_of_mem last (List.mem_cons_of_mem ev hb))
        · intro e he
          simp only [Option.toList_some, List.mem_append,
            List.mem_singleton] at he
          rcases he with (he | he) | he
          · exact hdur' e (Or.inl he)
          · subst he
            simp only
            have hlast : EPSILON_MS < last.duration_ms :=
              hdur' last (Or.inr (Or.inl rfl))
            have hle : last.time_ms + last.duration_ms ≤
                max (last.time_ms + last.duration_ms)
                  (ev.time_ms + ev.duration_ms) := le_max_left _ _
            linarith
          · exact hdur' e (Or.inr (Or.inr (Or.inr he)))
      · have hstep : mergeStep flag (init, some last) ev =
            (init ++ [last], some ev) := by
          simp only [mergeStep]
          rw [if_neg hc]
        rw [hstep]
        refine ih (init ++ [last]) (some ev) flag ?_ ?_
        · simp only [Option.toList_some]
          rw [List.append_assoc, List.singleton_append, List.append_assoc,
            List.singleton_append, List.pairwise_append, List.pairwise_cons,
            List.pairwise_cons]
          exact ⟨pInit, ⟨fun b hb => pLast b hb, pEvRest, pRest⟩,
            fun a ha b hb => pCross a ha b hb⟩
        · intro e he
          simp only [Option.toList_some, List.append_assoc,
            List.singleton_append, List.mem_append, List.mem_cons] at he
          apply hdur' e
          tauto

theorem mergePass_inv (flag : Bool) (l : List Event)
    (hpw : l.Pairwise EndsBefore)
    (hdur : ∀ e ∈ l, EPSILON_MS < e.duration_ms) :
    (mergePass flag l).Pairwise EndsBefore ∧
      ∀ e ∈ mergePass flag l, EPSILON_MS < e.duration_ms := by
  have h := mergeFold_inv l [] none flag (by simpa using hpw)
    (by simpa using hdur)
  simpa [mergePass] using h

/-- C2: For every input event list, every policy, and both values of the
merge flag, whenever the monophonic reduction returns an output it is
sorted by `start_ms` ascending and non-overlapping: for all pairs of
output events in order, `a.time_ms + a.duration_ms ≤ b.time_ms` (an exact
inequality, hence in particular within the 2 ms epsilon tolerance). -/
theorem C2_reduce_sorted_nonoverlap (events : List Event)
    (policy : PolyPolicy) (merge : Bool) (out : List Event)
    (h : reduce_to_monophonic events policy merge = some out) :
    out.Pairwise (fun a b => a.time_ms ≤ b.time_ms ∧
      a.time_ms + a.duration_ms ≤ b.time_ms) := by
  by_cases hemp : events.isEmpty
  · rw [reduce_to_monophonic, if_pos hemp] at h
    obtain rfl : events = out := Option.some.inj h
    obtain rfl : events = [] := List.isEmpty_iff.mp hemp
    simp
  · have hemp' : events.isEmpty = false := by
      simpa using hemp
    simp only [reduce_to_monophonic, hemp', Bool.false_eq_true, if_false,
      Option.bind_eq_bind] at h
    rcases hfold : (List.insertionSort (fun a b => ptLE a b = true) (mkPoints events)).foldlM
        (reduceStep policy) reduceInit with _ | final
    · rw [hfold] at h; cases h
    rw [hfold] at h
    simp only [Option.some_bind] at h
    obtain rfl : mergePass merge final.result = out := Option.some.inj h
    have hsorted : (List.insertionSort (fun a b => ptLE a b = true)
        (mkPoints events)).Pairwise
        (fun a b : Point => a.time_ms ≤ b.time_ms) := by
      have hs := @List.sorted_insertionSort Point
        (fun a b => ptLE a b = true) (fun a b => instDecidableEqBool _ _)
        ⟨fun a b => by simpa using ptLE_total a b⟩
        ⟨fun a b c hab hbc => ptLE_trans a b c hab hbc⟩ (mkPoints events)
      exact hs.imp (fun hab => ptLE_time _ _ hab)
    have hsw := sweep_fold_inv policy
      (List.insertionSort (fun a b => ptLE a b = true) (mkPoints events))
      reduceInit final hsorted (by simp [reduceInit]) (by simp [reduceInit])
      (by simp [reduceInit]) (by simp [reduceInit]) hfold
    have hm := mergePass_inv merge final.result hsw.1 hsw.2
    refine List.Pairwise.imp_of_mem ?_ hm.1
    intro a b ha _ hab
    have hab' : a.time_ms + a.duration_ms ≤ b.time_ms := hab
    have hda : EPSILON_MS < a.duration_ms := hm.2 a ha
    have heps : (0 : ℚ) < EPSILON_MS := by norm_num [EPSILON_MS]
    exact ⟨by linarith, hab'⟩

/-- Witness for C2 at a concrete reduction. -/
theorem C2_witness :
    ([⟨⟨69, 255⟩, 0, 500⟩, ⟨⟨77, 255⟩, 500, 1000⟩] : List Event).Pairwise
      (fun a b => a.time_ms ≤ b.time_ms ∧
        a.time_ms + a.duration_ms ≤ b.time_ms) :=
  C2_reduce_sorted_nonoverlap
    [⟨⟨69, 255⟩, 0, 1000⟩, ⟨⟨77, 255⟩, 500, 1000⟩] .Highest false _
    (by
      simp [reduce_to_monophonic, mkPoints, List.insertionSort, List.orderedInsert, ptLE, reduceStep,
        closeSegment, chooseNote, activeInsert, activeErase, reduceInit,
        mergePass, EPSILON_MS, List.foldlM, loudestOf]
      norm_num [mergeStep])

/-! ### Pitch provenance through the pipeline (for C9) -/

theorem mem_of_getLast?_eq {α : Type u} {l : List α} {a : α}
    (h : l.getLast? = some a) : a ∈ l := by
  induction l with
  | nil => cases h
  | cons b t ih =>
    rcases t with _ | ⟨c, u⟩
    · simp_all
    · rw [List.getLast?_cons_cons] at h
      exact List.mem_cons_of_mem b (ih h)

theorem mem_of_head?_eq {α : Type u} {l : List α} {a : α}
    (h : l.head? = some a) : a ∈ l := by
  cases l <;> simp_all

theorem loudest_aux (l : List ActiveEntry) :
    ∀ (acc res : Option (ℕ × ℕ)),
      l.foldl
          (fun acc e =>
            match acc with
            | none => some (e.2.2, e.1)
            | some p => if p.1 ≤ e.2.2 then some (e.2.2, e.1) else some p)
          acc = res →
      res.isSome = true →
      acc = res ∨ ∃ e ∈ l, res = some (e.2.2, e.1) := by
  induction l with
  | nil =>
    intro acc res h _
    exact Or.inl h
  | cons e rest ih =>
    intro acc res h hsome
    rcases ih _ res h hsome with hacc | ⟨e', he', hres⟩
    · rcases acc with _ | p
      · simp only at hacc
        exact Or.inr ⟨e, List.mem_cons_self e rest, hacc.symm⟩
      · simp only at hacc
        by_cases hp : p.1 ≤ e.2.2
        · rw [if_pos hp] at hacc
          exact Or.inr ⟨e, List.mem_cons_self e rest, hacc.symm⟩
        · rw [if_neg hp] at hacc
          exact Or.inl hacc
    · exact Or.inr ⟨e', List.mem_cons_of_mem e he', hres⟩

theorem loudestOf_mem (l : List ActiveEntry) (c : ℕ)
    (h : loudestOf l = some c) : ∃ a ∈ l, a.1 = c := by
  rw [loudestOf] at h
  rcases hf : l.foldl
      (fun acc e =>
        match acc with
        | none => some (e.2.2, e.1)
        | some p => if p.1 ≤ e.2.2 then some (e.2.2, e.1) else some p)
      none with _ | res
  · rw [hf] at h; cases h
  · rw [hf] at h
    rcases loudest_aux l none (some res) hf rfl with hacc | ⟨e, he, hres⟩
    · cases hacc
    · obtain rfl : res = (e.2.2, e.1) := Option.some.inj hres
      exact ⟨e, he, Option.some.inj h⟩

theorem chooseNote_mem (policy : PolyPolicy) (active : List ActiveEntry)
    (c : ℕ) (h : chooseNote policy active = some (some c)) :
    ∃ a ∈ active, a.1 = c := by
  cases policy with
  | Highest =>
    simp only [chooseNote] at h
    obtain h' := Option.some.inj h
    rcases hg : active.getLast? with _ | a
    · rw [hg] at h'; cases h'
    · rw [hg] at h'
      exact ⟨a, mem_of_getLast?_eq hg, Option.some.inj h'⟩
  | Lowest =>
    simp only [chooseNote] at h
    obtain h' := Option.some.inj h
    rcases hg : active.head? with _ | a
    · rw [hg] at h'; cases h'
    · rw [hg] at h'
      exact ⟨a, mem_of_head?_eq hg, Option.some.inj h'⟩
  | Loudest =>
    simp only [chooseNote] at h
    exact loudestOf_mem active c (Option.some.inj h)
  | Densest => cases h

theorem activeInsert_mem (m : ℕ) (x : ℚ) (v : ℕ) (l : List ActiveEntry)
    (a : ActiveEntry) (h : a ∈ activeInsert m x v l) :
    a = (m, x, v) ∨ a ∈ l := by
  induction l with
  | nil => simpa [activeInsert] using h
  | cons e rest ih =>
    simp only [activeInsert] at h
    by_cases h1 : m < e.1
    · rw [if_pos h1] at h
      rcases List.mem_cons.mp h with h | h
      · exact Or.inl h
      · exact Or.inr h
    · rw [if_neg h1] at h
      by_cases h2 : m = e.1
      · rw [if_pos h2] at h
        rcases List.mem_cons.mp h with h | h
        · exact Or.inl h
        · exact Or.inr (List.mem_cons_of_mem e h)
      · rw [if_neg h2] at h
        rcases List.mem_cons.mp h with h | h
        · exact Or.inr (h ▸ List.mem_cons_self e rest)
        · rcases ih h with h | h
          · exact Or.inl h
          · exact Or.inr (List.mem_cons_of_mem e h)

theorem closeSegment_mem (cn_opt : Option ℕ) (cs_opt : Option ℚ) (pt : Point)
    (res : List Event) (e : Event) (h : e ∈ closeSegment cn_opt cs_opt pt res) :
    e ∈ res ∨ ∃ cn, cn_opt = some cn ∧ e.note.midi = cn := by
  rcases cn_opt with _ | cn <;> rcases cs_opt with _ | cs
  · exact Or.inl (by simpa [closeSegment] using h)
  · exact Or.inl (by simpa [closeSegment] using h)
  · exact Or.inl (by simpa [closeSegment] using h)
  · simp only [closeSegment] at h
    by_cases ht : cs + EPSILON_MS < pt.time_ms
    · rw [if_pos ht] at h
      rcases List.mem_append.mp h with h | h
      · exact Or.inl h
      · simp only [List.mem_singleton] at h
        subst h
        exact Or.inr ⟨cn, rfl, rfl⟩
    · rw [if_neg ht] at h
      exact Or.inl h

/-- One sweep step only moves pitches already present in the point or the
state into the state. -/
theorem reduceStep_midis (policy : PolyPolicy) (st st1 : RState) (pt : Point)
    (Q : ℕ → Prop) (h : reduceStep policy st pt = some st1)
    (hpt : Q pt.midi)
    (hact : ∀ a ∈ st.active, Q a.1)
    (hcn : ∀ c, st.current_note = some c → Q c)
    (hres : ∀ e ∈ st.result, Q e.note.midi) :
    (∀ a ∈ st1.active, Q a.1) ∧
    (∀ c, st1.current_note = some c → Q c) ∧
    (∀ e ∈ st1.result, Q e.note.midi) := by
  have hact1 : ∀ a ∈ (if pt.is_start then
      activeInsert pt.midi (pt.time_ms + pt.duration_ms) pt.velocity st.active
    else activeErase pt.midi st.active), Q a.1 := by
    intro a ha
    by_cases hs : pt.is_start
    · rw [if_pos hs] at ha
      rcases activeInsert_mem _ _ _ _ _ ha with rfl | ha'
      · exact hpt
      · exact hact a ha'
    · rw [if_neg hs] at ha
      exact hact a (List.mem_of_mem_filter ha)
  have hclose : ∀ e ∈ closeSegment st.current_note st.current_start pt
      st.result, Q e.note.midi := by
    intro e he
    rcases closeSegment_mem _ _ _ _ _ he with he' | ⟨cn, hcn', hmid⟩
    · exact hres e he'
    · rw [hmid]
      exact hcn cn hcn'
  rw [reduceStep] at h
  rcases hch : chooseNote policy
      (if pt.is_start then
        activeInsert pt.midi (pt.time_ms + pt.duration_ms) pt.velocity st.active
      else activeErase pt.midi st.active) with _ | chosen
  · rw [hch] at h; cases h
  rw [hch] at h
  simp only at h
  by_cases hceq : chosen = st.current_note
  · rw [if_pos hceq] at h
    obtain rfl : st1 = ⟨st.result, st.current_note, st.current_start, _⟩ :=
      (Option.some.inj h).symm
    exact ⟨hact1, hcn, hres⟩
  · rw [if_neg hceq] at h
    rcases chosen with _ | c
    · obtain rfl : st1 = ⟨_, none, none, _⟩ := (Option.some.inj h).symm
      exact ⟨hact1, (fun c hc => by cases hc), hclose⟩
    · obtain rfl : st1 = ⟨_, some c, some pt.time_ms, _⟩ :=
        (Option.some.inj h).symm
      refine ⟨hact1, fun c' hc' => ?_, hclose⟩
      obtain rfl : c = c' := Option.some.inj hc'
      obtain ⟨a, ha, rfl⟩ := chooseNote_mem policy _ c hch
      exact hact1 a ha

theorem sweep_fold_midis (policy : PolyPolicy) (Q : ℕ → Prop) :
    ∀ (pts : List Point) (st st' : RState),
      (∀ p ∈ pts, Q p.midi) →
      (∀ a ∈ st.active, Q a.1) →
      (∀ c, st.current_note = some c → Q c) →
      (∀ e ∈ st.result, Q e.note.midi) →
      pts.foldlM (reduceStep policy) st = some st' →
      ∀ e ∈ st'.result, Q e.note.midi := by
  intro pts
  induction pts with
  | nil =>
    intro st st' _ _ _ hres hfold
    obtain rfl : st = st' := by simpa using hfold
    exact hres
  | cons pt rest ih =>
    intro st st' hpts hact hcn hres hfold
    rw [List.foldlM_cons] at hfold
    rcases hstep : reduceStep policy st pt with _ | st1
    · rw [hstep] at hfold; cases hfold
    rw [hstep] at hfold
    simp only [Option.bind_eq_bind, Option.some_bind] at hfold
    obtain ⟨h1, h2, h3⟩ := reduceStep_midis policy st st1 pt Q hstep
      (hpts pt (List.mem_cons_self pt rest)) hact hcn hres
    exact ih st1 st' (fun p hp => hpts p (List.mem_cons_of_mem pt hp))
      h1 h2 h3 hfold

theorem mergeFold_midis (Q : ℕ → Prop) :
    ∀ (rest init : List Event) (lastO : Option Event) (flag : Bool),
      (∀ e ∈ init, Q e.note.midi) →
      (∀ e, lastO = some e → Q e.note.midi) →
      (∀ e ∈ rest, Q e.note.midi) →
      ∀ e ∈ (rest.foldl (mergeStep flag) (init, lastO)).1 ++
          (rest.foldl (mergeStep flag) (init, lastO)).2.toList,
        Q e.note.midi := by
  intro rest
  induction rest with
  | nil =>
    intro init lastO flag hinit hlast _ e he
    simp only [List.foldl_nil] at he
    rcases List.mem_append.mp he with he | he
    · exact hinit e he
    · rcases lastO with _ | last
      · cases he
      · simp only [Option.toList_some, List.mem_singleton] at he
        subst he
        exact hlast e rfl
  | cons ev rest ih =>
    intro init lastO flag hinit hlast hrest
    rw [List.foldl_cons]
    rcases lastO with _ | last
    · have hstep : mergeStep flag (init, none) ev = (init, some ev) := by
        simp [mergeStep]
      rw [hstep]
      refine ih init (some ev) flag hinit ?_
        (fun e he => hrest e (List.mem_cons_of_mem ev he))
      intro e he
      obtain rfl := Option.some.inj he
      exact hrest ev (List.mem_cons_self ev rest)
    · by_cases hc : (flag && last.note == ev.note &&
          decide (|last.time_ms + last.duration_ms - ev.time_ms| ≤ EPSILON_MS))
          = true
      · have hstep : mergeStep flag (init, some last) ev =
            (init, some ⟨last.note, last.time_ms,
              max (last.time_ms + last.duration_ms)
                  (ev.time_ms + ev.duration_ms) - last.time_ms⟩) := by
          simp only [mergeStep]
          rw [if_pos hc]
        rw [hstep]
        refine ih init _ flag hinit ?_
          (fun e he => hrest e (List.mem_cons_of_mem ev he))
        intro e he
        obtain rfl := Option.some.inj he
        exact hlast last rfl
      · have hstep : mergeStep flag (init, some last) ev =
            (init ++ [last], some ev) := by
          simp only [mergeStep]
          rw [if_neg hc]
        rw [hstep]
        refine ih (init ++ [last]) (some ev) flag ?_
          (fun e he =>
            (Option.some.inj he) ▸ hrest ev (List.mem_cons_self ev rest))
          (fun e he => hrest e (List.mem_cons_of_mem ev he))
        intro e he
        rcases List.mem_append.mp he with he | he
        · exact hinit e he
        · simp only [List.mem_singleton] at he
          subst he
          exact hlast e rfl

theorem mkPoints_midi (events : List Event) (p : Point)
    (h : p ∈ mkPoints events) : ∃ e ∈ events, e.note.midi = p.midi := by
  induction events with
  | nil => simp [mkPoints] at h
  | cons ev rest ih =>
    simp only [mkPoints, List.foldr_cons] at h
    rcases List.mem_cons.mp h with h | h
    · subst h
      exact ⟨ev, List.mem_cons_self ev rest, rfl⟩
    · rcases List.mem_cons.mp h with h | h
      · subst h
        exact ⟨ev, List.mem_cons_self ev rest, rfl⟩
      · obtain ⟨e, he, hm⟩ := ih h
        exact ⟨e, List.mem_cons_of_mem ev he, hm⟩

/-- Every pitch emitted by the reduction is the pitch of some input event. -/
theorem reduce_to_monophonic_midis (events : List Event) (policy : PolyPolicy)
    (merge : Bool) (out : List Event)
    (h : reduce_to_monophonic events policy merge = some out) :
    ∀ e ∈ out, ∃ e0 ∈ events, e0.note.midi = e.note.midi := by
  by_cases hemp : events.isEmpty
  · rw [reduce_to_monophonic, if_pos hemp] at h
    obtain rfl : events = out := Option.some.inj h
    obtain rfl : events = [] := List.isEmpty_iff.mp hemp
    simp
  · have hemp' : events.isEmpty = false := by
      simpa using hemp
    simp only [reduce_to_monophonic, hemp', Bool.false_eq_true, if_false,
      Option.bind_eq_bind] at h
    rcases hfold : (List.insertionSort (fun a b => ptLE a b = true) (mkPoints events)).foldlM
        (reduceStep policy) reduceInit with _ | final
    · rw [hfold] at h; cases h
    rw [hfold] at h
    simp only [Option.some_bind] at h
    obtain rfl : mergePass merge final.result = out := Option.some.inj h
    have hsw := sweep_fold_midis policy
      (fun m => ∃ e0 ∈ events, e0.note.midi = m)
      (List.insertionSort (fun a b => ptLE a b = true) (mkPoints events))
      reduceInit final
      (fun p hp => mkPoints_midi events p ((List.mem_insertionSort _).mp hp))
      (by simp [reduceInit]) (by simp [reduceInit]) (by simp [reduceInit])
      hfold
    intro e he
    exact mergeFold_midis (fun m => ∃ e0 ∈ events, e0.note.midi = m)
      final.result [] none merge (by simp) (by simp) hsw e
      (by simpa [mergePass] using he)

/-! ### Transpose and range clipping (for C9) -/

theorem transpose_clip_range (midi : ℕ) (t : ℤ) (clip : Option (ℕ × ℕ))
    (n : ℕ) (h : transpose_clip midi t clip = some n) :
    n ≤ 127 ∧ ∀ lo hi, clip = some (lo, hi) → lo ≤ n ∧ n ≤ hi := by
  rcases clip with _ | r
  · simp only [transpose_clip] at h
    by_cases hb : ((midi : ℤ) + t < 0 || (midi : ℤ) + t > 127) = true
    · rw [if_pos hb] at h; cases h
    · rw [if_neg hb] at h
      obtain rfl : ((midi : ℤ) + t).toNat = n := Option.some.inj h
      simp only [Bool.or_eq_true, decide_eq_true_eq, not_or, not_lt] at hb
      refine ⟨?_, fun lo hi hcl => by cases hcl⟩
      omega
  · rcases r with ⟨lo0, hi0⟩
    simp only [transpose_clip] at h
    by_cases hb1 : (octave_fold (lo0 : ℤ) (hi0 : ℤ) 8 ((midi : ℤ) + t) < (lo0 : ℤ) ||
        octave_fold (lo0 : ℤ) (hi0 : ℤ) 8 ((midi : ℤ) + t) > (hi0 : ℤ)) = true
    · rw [if_pos hb1] at h; cases h
    · rw [if_neg hb1] at h
      simp only at h
      by_cases hb2 : (octave_fold (lo0 : ℤ) (hi0 : ℤ) 8 ((midi : ℤ) + t) < 0 ||
          octave_fold (lo0 : ℤ) (hi0 : ℤ) 8 ((midi : ℤ) + t) > 127) = true
      · rw [if_pos hb2] at h; cases h
      · rw [if_neg hb2] at h
        obtain rfl : (octave_fold (lo0 : ℤ) (hi0 : ℤ) 8 ((midi : ℤ) + t)).toNat
            = n := Option.some.inj h
        simp only [Bool.or_eq_true, decide_eq_true_eq, not_or, not_lt] at hb1 hb2
        constructor
        · omega
        · intro lo hi hcl
          obtain ⟨rfl, rfl⟩ : lo0 = lo ∧ hi0 = hi := by
            have hcl' := Option.some.inj hcl
            exact ⟨congrArg Prod.fst hcl', congrArg Prod.snd hcl'⟩
          omega

theorem interval_to_event_some (to_ms : ℕ → ℚ) (t : ℤ)
    (clip : Option (ℕ × ℕ)) (iv : NoteInterval) (e : Event)
    (h : interval_to_event to_ms t clip iv = some e) :
    ∃ n, transpose_clip iv.midi t clip = some n ∧ e.note.midi = n := by
  rw [interval_to_event] at h
  rcases htc : transpose_clip iv.midi t clip with _ | nid
  · rw [htc] at h; cases h
  · rw [htc] at h
    simp only at h
    by_cases h1 : to_ms iv.end_tick ≤ to_ms iv.start_tick
    · rw [if_pos h1] at h; cases h
    · rw [if_neg h1] at h
      by_cases h2 : to_ms iv.end_tick - to_ms iv.start_tick < EPSILON_MS
      · rw [if_pos h2] at h; cases h
      · rw [if_neg h2] at h
        obtain rfl := Option.some.inj h
        exact ⟨nid, rfl, rfl⟩

/-- C6: Every event in the `Song` returned by a successful build has
duration at least the 2 ms epsilon, for every policy: an extracted interval
whose end time is not strictly after its start is dropped, an interval
shorter than 2 ms is dropped before reduction, and anything shorter than
2 ms remaining after reduction and optional merging is dropped by the final
cull. -/
theorem C6_epsilon_culling :
    (∀ tracks tpq title transpose policy merge clip song,
      midi_bytes_to_song tracks tpq title transpose policy merge clip =
        some song →
      ∀ e ∈ song.events, EPSILON_MS ≤ e.duration_ms) ∧
    (∀ (to_ms : ℕ → ℚ) (t : ℤ) (clip : Option (ℕ × ℕ)) (iv : NoteInterval),
      to_ms iv.end_tick ≤ to_ms iv.start_tick →
      interval_to_event to_ms t clip iv = none) ∧
    (∀ (to_ms : ℕ → ℚ) (t : ℤ) (clip : Option (ℕ × ℕ)) (iv : NoteInterval),
      to_ms iv.end_tick - to_ms iv.start_tick < EPSILON_MS →
      interval_to_event to_ms t clip iv = none) := by
  refine ⟨?_, ?_, ?_⟩
  · intro tracks tpq title transpose policy merge clip song h e he
    simp only [midi_bytes_to_song] at h
    rcases hred : reduce_to_monophonic
        (sorted_raw_events tracks tpq transpose clip) policy merge
        with _ | reduced
    · rw [hred] at h; cases h
    · rw [hred] at h
      obtain rfl : (⟨⟨title, song_tempo_bpm tracks tpq⟩,
          reduced.filter (fun ev => ¬ ev.duration_ms < EPSILON_MS)⟩ : Song)
          = song := Option.some.inj h
      simp only [List.mem_filter, decide_eq_true_eq, not_lt] at he
      exact he.2
  · intro to_ms t clip iv hle
    rw [interval_to_event]
    rcases htc : transpose_clip iv.midi t clip with _ | nid
    · rfl
    · simp only
      rw [if_pos hle]
  · intro to_ms t clip iv hlt
    rw [interval_to_event]
    rcases htc : transpose_clip iv.midi t clip with _ | nid
    · rfl
    · simp only
      by_cases h1 : to_ms iv.end_tick ≤ to_ms iv.start_tick
      · rw [if_pos h1]
      · rw [if_neg h1, if_pos hlt]

/-- C9: After transpose and octave folding every event of a successful
build has a pitch inside the clip range (when one is given) and inside
`0..=127` (the lower bound is the type: pitches are naturals). -/
theorem C9_transpose_clip_bounds (tracks : List (List TrackEvent)) (tpq : ℕ)
    (title : Option String) (transpose : ℤ) (policy : PolyPolicy)
    (merge : Bool) (clip : Option (ℕ × ℕ)) (song : Song)
    (h : midi_bytes_to_song tracks tpq title transpose policy merge clip =
      some song) :
    ∀ e ∈ song.events,
      e.note.midi ≤ 127 ∧
      ∀ lo hi, clip = some (lo, hi) → lo ≤ e.note.midi ∧ e.note.midi ≤ hi := by
  intro e he
  simp only [midi_bytes_to_song] at h
  rcases hred : reduce_to_monophonic
      (sorted_raw_events tracks tpq transpose clip) policy merge
      with _ | reduced
  · rw [hred] at h; cases h
  · rw [hred] at h
    obtain rfl : (⟨⟨title, song_tempo_bpm tracks tpq⟩,
        reduced.filter (fun ev => ¬ ev.duration_ms < EPSILON_MS)⟩ : Song)
        = song := Option.some.inj h
    simp only [List.mem_filter] at he
    obtain ⟨e0, he0, hmid⟩ :=
      reduce_to_monophonic_midis _ _ _ _ hred e he.1
    simp only [sorted_raw_events] at he0
    obtain ⟨iv, _, hie⟩ :=
      List.mem_filterMap.mp ((List.mem_insertionSort _).mp he0)
    obtain ⟨n, htc, hn⟩ := interval_to_event_some _ _ _ _ _ hie
    obtain ⟨h127, hrange⟩ := transpose_clip_range _ _ _ _ htc
    rw [← hmid, hn]
    exact ⟨h127, hrange⟩

/-- Witness for C6: a one-note build yields a 500 ms event (≥ epsilon); a
degenerate interval and a sub-epsilon interval are both dropped. -/
theorem C6_epsilon_culling_witness :
    EPSILON_MS ≤ ((⟨⟨60, 64⟩, 0, 500⟩ : Event)).duration_ms ∧
    interval_to_event (fun _ => 0) 0 none ⟨60, 5, 9, 64, 0⟩ = none ∧
    interval_to_event (fun t => (t : ℚ)) 0 none ⟨60, 1000, 1001, 64, 0⟩ =
      none :=
  ⟨C6_epsilon_culling.1 [[⟨0, .noteOn 0 60 64⟩, ⟨480, .noteOff 0 60⟩]] 480
      (some "t.mid") 0 .Highest false none
      ⟨⟨some "t.mid", some 120⟩, [⟨⟨60, 64⟩, 0, 500⟩]⟩
      (by
        have h1 : sorted_raw_events
            [[⟨0, .noteOn 0 60 64⟩, ⟨480, .noteOff 0 60⟩]] 480 0 none
            = [⟨⟨60, 64⟩, 0, 500⟩] := by
          norm_num [sorted_raw_events, process_tracks, scan_track, track_step,
            close_note, openPush, openPop, finalize_intervals,
            last_tick_estimate, auto_close_end, build_tempo_segments,
            ticks_to_ms, interval_to_event, transpose_clip, octave_fold,
            List.insertionSort, List.orderedInsert, EPSILON_MS, DEFAULT_MPQN,
            List.find?, List.filterMap_cons]
          decide
        have h2 : reduce_to_monophonic [(⟨⟨60, 64⟩, 0, 500⟩ : Event)]
            .Highest false = some [⟨⟨60, 64⟩, 0, 500⟩] := by
          simp [reduce_to_monophonic, mkPoints, List.insertionSort,
            List.orderedInsert, ptLE, reduceStep, closeSegment, chooseNote,
            activeInsert, activeErase, reduceInit, mergePass, EPSILON_MS,
            List.foldlM, loudestOf]
          norm_num [mergeStep]
        have h3 : song_tempo_bpm
            [[⟨0, .noteOn 0 60 64⟩, ⟨480, .noteOff 0 60⟩]] 480
            = some 120 := by
          norm_num [song_tempo_bpm, process_tracks, scan_track, track_step,
            close_note, openPush, build_tempo_segments, List.insertionSort,
            List.orderedInsert, DEFAULT_MPQN, MICROSECONDS_PER_MINUTE]
        rw [midi_bytes_to_song, h1, h2]
        norm_num [h3, EPSILON_MS])
      ⟨⟨60, 64⟩, 0, 500⟩ (by simp),
   C6_epsilon_culling.2.1 (fun _ => 0) 0 none ⟨60, 5, 9, 64, 0⟩ (by norm_num),
   C6_epsilon_culling.2.2 (fun t => (t : ℚ)) 0 none ⟨60, 1000, 1001, 64, 0⟩
     (by norm_num [EPSILON_MS])⟩

/-- Witness for C9: with clip range (69, 93), the note 60 is octave-folded
to 72, which lies inside the range and inside `0..=127`. -/
theorem C9_transpose_clip_bounds_witness :
    (⟨⟨72, 64⟩, 0, 500⟩ : Event).note.midi ≤ 127 ∧
    69 ≤ (⟨⟨72, 64⟩, 0, 500⟩ : Event).note.midi ∧
    (⟨⟨72, 64⟩, 0, 500⟩ : Event).note.midi ≤ 93 := by
  have h := C9_transpose_clip_bounds
    [[⟨0, .noteOn 0 60 64⟩, ⟨480, .noteOff 0 60⟩]] 480 (some "t.mid") 0
    .Highest false (some (69, 93))
    ⟨⟨some "t.mid", some 120⟩, [⟨⟨72, 64⟩, 0, 500⟩]⟩
    (by
      have h1 : sorted_raw_events
          [[⟨0, .noteOn 0 60 64⟩, ⟨480, .noteOff 0 60⟩]] 480 0
          (some (69, 93)) = [⟨⟨72, 64⟩, 0, 500⟩] := by
        norm_num [sorted_raw_events, process_tracks, scan_track, track_step,
          close_note, openPush, openPop, finalize_intervals,
          last_tick_estimate, auto_close_end, build_tempo_segments,
          ticks_to_ms, interval_to_event, transpose_clip, octave_fold,
          List.insertionSort, List.orderedInsert, EPSILON_MS, DEFAULT_MPQN,
          List.find?, List.filterMap_cons]
        decide
      have h2 : reduce_to_monophonic [(⟨⟨72, 64⟩, 0, 500⟩ : Event)]
          .Highest false = some [⟨⟨72, 64⟩, 0, 500⟩] := by
        simp [reduce_to_monophonic, mkPoints, List.insertionSort,
          List.orderedInsert, ptLE, reduceStep, closeSegment, chooseNote,
          activeInsert, activeErase, reduceInit, mergePass, EPSILON_MS,
          List.foldlM, loudestOf]
        norm_num [mergeStep]
      have h3 : song_tempo_bpm
          [[⟨0, .noteOn 0 60 64⟩, ⟨480, .noteOff 0 60⟩]] 480
          = some 120 := by
        norm_num [song_tempo_bpm, process_tracks, scan_track, track_step,
          close_note, openPush, build_tempo_segments, List.insertionSort,
          List.orderedInsert, DEFAULT_MPQN, MICROSECONDS_PER_MINUTE]
      rw [midi_bytes_to_song, h1, h2]
      norm_num [h3, EPSILON_MS])
    ⟨⟨72, 64⟩, 0, 500⟩ (by simp)
  exact ⟨h.1, (h.2 69 93 rfl).1, (h.2 69 93 rfl).2⟩

end FluteWell
